import Mathlib

/-!
Verification development for the household-ledger application
(`apps/web/src/App.tsx`, `apps/web/server/index.ts`, `apps/web/api/ai/receipt.ts`).

The ledger core is embedded shallowly: transactions are a structure over
`String`/`Int`, the React state updates (`setTxns`) become explicit
list-to-list functions, JS numbers that only ever hold yen amounts are
modelled as `Int` and the one fractional quantity (the daily budget rate)
as `ℚ`.  Each definition mirrors one function of the source; comments give
the source location.
-/

namespace Kakeibo

/-- JS whitespace class `\s` restricted to the ASCII whitespace characters;
used by `memo.replace(/\s+/g, " ").trim()` (App.tsx line 82) and `.trim()`
on the server. -/
def isWs (c : Char) : Bool :=
  c == ' ' || c == '\t' || c == '\n' || c == '\r' || c == '\x0b' || c == '\x0c'

/-- One pass of `memo.replace(/\s+/g, " ")`: the flag records whether the
previous character was whitespace (i.e. we are inside a run whose single
`' '` has already been emitted). -/
def collapseWsAux : Bool → List Char → List Char
  | _, [] => []
  | inRun, c :: cs =>
    if isWs c then
      if inRun then collapseWsAux true cs
      else ' ' :: collapseWsAux true cs
    else c :: collapseWsAux false cs

/-- `memo.replace(/\s+/g, " ")` over the character list. -/
def collapseWs (l : List Char) : List Char := collapseWsAux false l

/-- JS `String.prototype.trim`: drop leading and trailing whitespace. -/
def jsTrim (l : List Char) : List Char := (l.dropWhile isWs).rdropWhile isWs

/-- `s.trim()` on strings. -/
def strTrim (s : String) : String := String.mk (jsTrim s.data)

/-- `memo.replace(/\s+/g, " ").trim()` (App.tsx line 82). -/
def normMemo (l : List Char) : List Char := jsTrim (collapseWs l)

/-- String form of `normMemo`. -/
def strNormMemo (s : String) : String := String.mk (normMemo s.data)

/-- The maximal whitespace-free runs of a character list, in order.  Two
memos differing only in the whitespace separating (or surrounding) their
words have the same token list.  `acc` holds the reversed prefix of the
token currently being read. -/
def tokensAux : List Char → List Char → List (List Char)
  | [], acc => if acc = [] then [] else [acc.reverse]
  | c :: cs, acc =>
    if isWs c then
      if acc = [] then tokensAux cs []
      else acc.reverse :: tokensAux cs []
    else tokensAux cs (c :: acc)

/-- Token list of a string's characters. -/
def wsTokens (s : String) : List (List Char) := tokensAux s.data []

/-- Join tokens with single spaces (the normal form `normMemo` produces). -/
def joinSp : List (List Char) → List Char
  | [] => []
  | [t] => t
  | t :: t₂ :: ts => t ++ ' ' :: joinSp (t₂ :: ts)

/-- `Kind` — the `kind` field: `"expense" | "income"` (App.tsx line 44). -/
inductive Kind where
  | expense
  | income
deriving DecidableEq

/-- The string the source stores for a `Kind`. -/
def kindStr : Kind → String
  | .expense => "expense"
  | .income => "income"

/-- `Txn` (App.tsx lines 45–53).  `amount` is a whole yen amount. -/
structure Txn where
  id : String
  date : String
  payer : String
  category : String
  memo : String
  amount : Int
  kind : Kind
deriving DecidableEq

/-- `dupKey` (App.tsx lines 81–82):
`` `${t.date}|${t.memo.replace(/\s+/g, " ").trim()}|${t.amount}|${t.kind}` ``. -/
def dupKey (t : Txn) : String :=
  t.date ++ "|" ++ strNormMemo t.memo ++ "|" ++ toString t.amount ++ "|" ++ kindStr t.kind

/-- `t.date.slice(0, 7)` — the `YYYY-MM` month of a transaction. -/
def monthOf (t : Txn) : String := String.mk (t.date.data.take 7)

/-- `dups` of `addImportedWithDupPrompt` (App.tsx line 351): candidates whose
identity key occurs among the existing keys
(`new Set(txns.map(dupKey))` membership). -/
def classifyDups (imported txns : List Txn) : List Txn :=
  imported.filter fun i => (txns.map dupKey).contains (dupKey i)

/-- `news` of `addImportedWithDupPrompt` (App.tsx line 352): candidates whose
identity key is fresh. -/
def classifyNews (imported txns : List Txn) : List Txn :=
  imported.filter fun i => !(txns.map dupKey).contains (dupKey i)

/-- `addImportedWithDupPrompt` (App.tsx lines 345–372) as a ledger
transformer.  `confirmForce` is the answer `window.confirm` would return in
the all-duplicates branch; `fresh` supplies the `randomId()` values used
when duplicates are force-inserted. -/
def addImportedWithDupPrompt (imported txns : List Txn) (confirmForce : Bool)
    (fresh : Nat → String) : List Txn :=
  match imported with
  | [] => txns
  | _ :: _ =>
    let dups := classifyDups imported txns
    let news := classifyNews imported txns
    if news = [] ∧ dups ≠ [] then
      if confirmForce then
        txns ++ (dups.enum.map fun p => { p.2 with id := fresh p.1 })
      else txns
    else if news ≠ [] then news ++ txns
    else txns

/-- `handleOpenAIOcr` (App.tsx lines 375–394) after a successful extraction:
merges the OCR candidates through `addImportedWithDupPrompt`, then — whenever
the candidate list is non-empty — sets the reporting month to
`txns[0].date.slice(0, 7)`.  Returns (new ledger, new reporting month). -/
def handleOpenAIOcr (cand ledger : List Txn) (confirmForce : Bool)
    (fresh : Nat → String) (fm : String) : List Txn × String :=
  let merged := addImportedWithDupPrompt cand ledger confirmForce fresh
  match cand with
  | [] => (merged, fm)
  | c :: _ => (merged, String.mk (c.date.data.take 7))

/-- The manual-entry form state `newItem` (App.tsx lines 411–416); `Option`
models the `== null` / falsy checks of `addTxn`. -/
structure NewItem where
  date : String
  category : String
  memo : String
  payer : String
  amount? : Option Int
  kind? : Option Kind
deriving DecidableEq

/-- The record `addTxn` builds (App.tsx lines 421–429). -/
def manualTxn (ni : NewItem) (newId : String) (a : Int) (k : Kind) : Txn :=
  { id := newId
    date := ni.date
    payer := if ni.payer = "" then "共同" else ni.payer
    category := ni.category
    memo := ni.memo
    amount := a
    kind := k }

/-- `addTxn` (App.tsx lines 419–438).  The guard is exactly
`!newItem.date || !newItem.category || newItem.amount == null || !newItem.kind`;
if the built record's key already exists, `confirmDup` is the user's answer
to the duplicate prompt. -/
def addTxn (ni : NewItem) (newId : String) (txns : List Txn) (confirmDup : Bool) :
    List Txn :=
  if ni.date = "" then txns
  else if ni.category = "" then txns
  else
    match ni.amount?, ni.kind? with
    | some a, some k =>
      let t := manualTxn ni newId a k
      if (txns.map dupKey).contains (dupKey t) && !confirmDup then txns
      else t :: txns
    | _, _ => txns

/-- `saveEdit` (App.tsx lines 447–453): with an edit target, replaces every
transaction whose `id` equals `editId` by `{ ...newItem, id: editId }` via a
plain `map`; with no edit target it does nothing. -/
def saveEdit (editId : Option String) (newItem : Txn) (txns : List Txn) : List Txn :=
  match editId with
  | none => txns
  | some eid => txns.map fun t => if t.id = eid then { newItem with id := eid } else t

/-- `visible` (App.tsx line 223): `byMonth[filterMonth] || []` — the group of
`byMonth` (grouping by `date.slice(0, 7)`, insertion order kept) at the
selected month, i.e. the sub-list of transactions whose month is `fm`. -/
def visibleTxns (txns : List Txn) (fm : String) : List Txn :=
  txns.filter fun t => monthOf t == fm

/-- `.reduce((s, t) => s + t.amount, 0)` over a transaction list. -/
def sumAmounts (l : List Txn) : Int :=
  l.foldl (fun s t => s + t.amount) 0

/-- `visible.filter(t => t.kind === "expense")` — the list both
`categoryAgg` (line 234) and `expenseTotal` (line 251) aggregate over. -/
def expenseVisible (txns : List Txn) (fm : String) : List Txn :=
  (visibleTxns txns fm).filter fun t => t.kind == Kind.expense

/-- `expenseTotal` (App.tsx line 251). -/
def expenseTotal (txns : List Txn) (fm : String) : Int :=
  sumAmounts (expenseVisible txns fm)

/-- `agg[t.category] = (agg[t.category] || 0) + t.amount` (App.tsx line 235):
add `a` to the entry of key `c` of the record, creating the entry (at the
end, matching JS key insertion order) when absent. -/
def updAgg : List (String × Int) → String → Int → List (String × Int)
  | [], c, a => [(c, a)]
  | p :: rest, c, a =>
    if p.1 = c then (p.1, p.2 + a) :: rest else p :: updAgg rest c a

/-- `categoryAgg` (App.tsx lines 232–238): per-category expense sums of the
selected month as `Object.entries` of the accumulated record. -/
def categoryAgg (txns : List Txn) (fm : String) : List (String × Int) :=
  (expenseVisible txns fm).foldl (fun agg t => updAgg agg t.category t.amount) []

/-- The sum across categories of a `categoryAgg` result (the quantity the
claim compares with `expenseTotal`). -/
def sumVals (l : List (String × Int)) : Int :=
  (l.map Prod.snd).sum

/-- JS `Number(s)` restricted to unsigned digit strings: `Number("") = 0`,
all-digits parse to their value, anything else is `NaN` (`none`).  Covers
every value `Number` receives from the date / month slices below. -/
def jsNumDigits? (cs : List Char) : Option Nat :=
  cs.foldl
    (fun acc c =>
      match acc with
      | some n => if c.isDigit then some (n * 10 + (c.toNat - 48)) else none
      | none => none)
    (some 0)

/-- Proleptic Gregorian leap-year rule, as `new Date` uses. -/
def isLeap (y : Int) : Bool :=
  y % 4 == 0 && (y % 100 != 0 || y % 400 == 0)

/-- Length of month `m` (0-indexed, `0 ≤ m ≤ 11`) of year `y`. -/
def monthLenByIdx (y : Int) (m : Nat) : Nat :=
  if m = 1 then (if isLeap y then 29 else 28)
  else if m = 3 ∨ m = 5 ∨ m = 8 ∨ m = 10 then 30
  else 31

/-- `new Date(year, month + 1, 0).getDate()` (App.tsx line 294): the number
of days of the month with 0-based index `mIdx` of year `y`, after the
`Date` month-overflow normalization (floor-divide the index by 12 into the
year). -/
def jsMonthLen (y mIdx : Int) : Nat :=
  monthLenByIdx (y + mIdx.fdiv 12) (mIdx.fmod 12).toNat

/-- `Number(t.date.slice(8, 10))` (App.tsx line 301); `none` is `NaN` and
is skipped by the `Number.isFinite` guard. -/
def dayOf (t : Txn) : Option Nat :=
  jsNumDigits? ((t.date.data.drop 8).take 2)

/-- `expenseByDay[d] || 0` after the accumulation loop (App.tsx
lines 297–308): the expense sum of day `d` of the visible month. -/
def expenseByDay (vis : List Txn) (d : Nat) : Int :=
  sumAmounts (vis.filter fun t => t.kind == Kind.expense && dayOf t == some d)

/-- `incomeByDay[d] || 0` (App.tsx lines 297–308). -/
def incomeByDay (vis : List Txn) (d : Nat) : Int :=
  sumAmounts (vis.filter fun t => t.kind == Kind.income && dayOf t == some d)

/-- `String(d).padStart(2, "0")` (App.tsx line 331). -/
def pad2 (d : Nat) : String :=
  (if d < 10 then "0" else "") ++ toString d

/-- One row of `progressData` (App.tsx lines 311–318). -/
structure ProgressRow where
  day : String
  expense : Int
  income : Int
  cumExpense : Int
  cumIncome : Int
  cumBudget : ℚ
deriving DecidableEq

/-- The `for (let d = 1; d <= lastDay; d++)` loop of `progressData`
(App.tsx lines 324–338); `n` counts the remaining iterations, `d` is the
current day. -/
def progressGo (eBy iBy : Nat → Int) (perDay : ℚ) :
    Nat → Nat → Int → Int → ℚ → List ProgressRow
  | 0, _, _, _, _ => []
  | n + 1, d, cumE, cumI, cumB =>
    let e := eBy d
    let i := iBy d
    { day := pad2 d
      expense := e
      income := i
      cumExpense := cumE + e
      cumIncome := cumI + i
      cumBudget := cumB + perDay } ::
      progressGo eBy iBy perDay n (d + 1) (cumE + e) (cumI + i) (cumB + perDay)

/-- `progressData` (App.tsx lines 287–340): parse the selected month, take
the month length, and emit one row per day with per-day and cumulative
sums and the cumulative linear budget
(`perDayBudget = monthlyBudget / Math.max(1, lastDay)`). -/
def progressData (fm : String) (monthlyBudget : ℚ) (txns : List Txn) :
    List ProgressRow :=
  match jsNumDigits? (fm.data.take 4), jsNumDigits? ((fm.data.drop 5).take 2) with
  | some y, some m =>
    let lastDay := jsMonthLen (y : Int) ((m : Int) - 1)
    let vis := visibleTxns txns fm
    let perDay : ℚ := monthlyBudget / ((max 1 lastDay : Nat) : ℚ)
    progressGo (expenseByDay vis) (incomeByDay vis) perDay lastDay 1 0 0 0
  | _, _ => []

/-- A well-formed `YYYY-MM` reporting month as the source parses it
(`Number(fm.slice(0, 4))`, `Number(fm.slice(5, 7))`), with a real month
number `1 ≤ m ≤ 12`. -/
def monthStr? (fm : String) : Option (Nat × Nat) :=
  (jsNumDigits? (fm.data.take 4)).bind fun y =>
    (jsNumDigits? ((fm.data.drop 5).take 2)).bind fun m =>
      if 1 ≤ m ∧ m ≤ 12 then some (y, m) else none

/-- Calendar length of month `m` (1-based) of year `y`. -/
def daysInMonth (y m : Nat) : Nat := monthLenByIdx (y : Int) (m - 1)

/-- An extraction-payload item as the receipt endpoints see it after field
coercion (`server/index.ts` lines 122–141, `api/ai/receipt.ts`
lines 53–72): `date?` is the raw field when it is a string, `memo` is
`String(it?.memo || "")`, `amount` is the numeric parse with `|| 0` mapping
a failed parse to `0`, and `kind` is whatever the collaborator supplied —
the normalizer never reads it. -/
structure RawReceiptItem where
  date? : Option String
  memo : String
  amount : ℚ
  category : String
  payer : String
  kind : String
deriving DecidableEq

/-- The item shape both receipt endpoints return. -/
structure ReceiptItem where
  date : String
  memo : String
  amount : ℚ
  category : String
  payer : String
  kind : String
deriving DecidableEq

/-- `/^\d{4}-\d{2}-\d{2}$/.test s`. -/
def isDateFmt (s : String) : Bool :=
  match s.data with
  | [a, b, c, d, e, f, g, h, i, j] =>
    a.isDigit && b.isDigit && c.isDigit && d.isDigit && e == '-' &&
      f.isDigit && g.isDigit && h == '-' && i.isDigit && j.isDigit
  | _ => false

/-- The per-item receipt normalization (`server/index.ts` lines 124–140 and
`api/ai/receipt.ts` lines 55–71): trim the memo, drop the item when
`amount <= 0 || !memo`, substitute `today` for a missing or malformed date,
and hardcode `kind: "expense"`. -/
def normalizeReceiptItem (today : String) (it : RawReceiptItem) :
    Option ReceiptItem :=
  let memo := strTrim it.memo
  if it.amount ≤ 0 || memo == "" then none
  else
    some
      { date :=
          match it.date? with
          | some d => if isDateFmt d then d else today
          | none => today
        memo := memo
        amount := it.amount
        category := it.category
        payer := it.payer
        kind := "expense" }

/-- `.map(...).filter(Boolean)` over the payload's `items`. -/
def normalizeReceiptItems (today : String) (its : List RawReceiptItem) :
    List ReceiptItem :=
  its.filterMap (normalizeReceiptItem today)

/-- `(i.kind as Kind) || "expense"` — the client-side re-normalization of a
received item's kind (App.tsx line 151). -/
def clientKindOf (k : String) : String :=
  if k == "" then "expense" else k

/-- Error type of the Ledger Store `update` as the spec describes it. -/
inductive UpdateError where
  | notFound
deriving DecidableEq

/-- Follows the spec's words (§4.3 `update(id, record)`): replace the record
with that `id` in place if present; signal `NotFound` if absent.  Stated for
comparison with the source's `saveEdit`. -/
def specUpdate (id : String) (record : Txn) (ledger : List Txn) :
    Except UpdateError (List Txn) :=
  if ledger.any (fun t => t.id = id) then
    .ok (ledger.map fun t => if t.id = id then { record with id := id } else t)
  else .error .notFound

/-! ### List helpers for trimming and whitespace collapsing -/

theorem contains_true_iff {α : Type _} [BEq α] [LawfulBEq α] {l : List α} {a : α} :
    l.contains a = true ↔ a ∈ l :=
  List.elem_iff

theorem dropWhile_append_notpos {α : Type _} (p : α → Bool) (c : α)
    (hc : p c = false) : ∀ m : List α, (m ++ [c]).dropWhile p = m.dropWhile p ++ [c]
  | [] => by simp [List.dropWhile_cons, hc]
  | a :: m => by
    by_cases ha : p a = true
    · rw [List.cons_append, List.dropWhile_cons, if_pos ha, List.dropWhile_cons,
        if_pos ha]
      exact dropWhile_append_notpos p c hc m
    · rw [List.cons_append, List.dropWhile_cons, if_neg ha, List.dropWhile_cons,
        if_neg ha, List.cons_append]

theorem dropWhile_append_of_ne {α : Type _} (p : α → Bool) :
    ∀ {m : List α}, m.dropWhile p ≠ [] →
      ∀ l₂ : List α, (m ++ l₂).dropWhile p = m.dropWhile p ++ l₂
  | [], h, _ => absurd rfl h
  | a :: m, h, l₂ => by
    by_cases ha : p a = true
    · rw [List.cons_append, List.dropWhile_cons, if_pos ha, List.dropWhile_cons,
        if_pos ha]
      rw [List.dropWhile_cons, if_pos ha] at h
      exact dropWhile_append_of_ne p h l₂
    · rw [List.cons_append, List.dropWhile_cons, if_neg ha, List.dropWhile_cons,
        if_neg ha, List.cons_append]

theorem rdropWhile_cons_not {α : Type _} (p : α → Bool) (c : α)
    (hc : p c = false) (m : List α) :
    (c :: m).rdropWhile p = c :: m.rdropWhile p := by
  unfold List.rdropWhile
  rw [List.reverse_cons, dropWhile_append_notpos p c hc, List.reverse_append]
  rfl

theorem rdropWhile_cons_ne {α : Type _} (p : α → Bool) (c : α) {m : List α}
    (h : m.rdropWhile p ≠ []) :
    (c :: m).rdropWhile p = c :: m.rdropWhile p := by
  have h' : m.reverse.dropWhile p ≠ [] := by
    intro he
    apply h
    unfold List.rdropWhile
    rw [he, List.reverse_nil]
  unfold List.rdropWhile
  rw [List.reverse_cons, dropWhile_append_of_ne p h', List.reverse_append]
  rfl

theorem rdropWhile_append_ne {α : Type _} (p : α → Bool) {m : List α}
    (h : m.rdropWhile p ≠ []) :
    ∀ X : List α, (X ++ m).rdropWhile p = X ++ m.rdropWhile p
  | [] => by simp
  | x :: X => by
    have hX : (X ++ m).rdropWhile p = X ++ m.rdropWhile p :=
      rdropWhile_append_ne p h X
    have hne : (X ++ m).rdropWhile p ≠ [] := by
      rw [hX]
      intro he
      exact h (List.append_eq_nil.mp he).2
    rw [List.cons_append, rdropWhile_cons_ne p x hne, hX]
    rfl

theorem rdropWhile_of_all_false {α : Type _} (p : α → Bool) {X : List α}
    (h : ∀ a ∈ X, p a = false) : X.rdropWhile p = X :=
  List.rdropWhile_eq_self_iff.mpr fun hl => by
    rw [h (X.getLast hl) (List.getLast_mem hl)]
    exact Bool.false_ne_true

theorem head_dropWhile_false {α : Type _} (p : α → Bool) (l : List α) :
    ∀ {c : α} {t : List α}, l.dropWhile p = c :: t → p c = false := by
  induction l with
  | nil => intro c t h; simp at h
  | cons a l ih =>
    intro c t h
    rw [List.dropWhile_cons] at h
    by_cases ha : p a = true
    · rw [if_pos ha] at h
      exact ih h
    · rw [if_neg ha] at h
      cases h
      simpa using ha

theorem dropWhile_jsTrim (l : List Char) : (jsTrim l).dropWhile isWs = jsTrim l := by
  cases h : jsTrim l with
  | nil => simp
  | cons c t =>
    have pre : jsTrim l <+: l.dropWhile isWs := List.rdropWhile_prefix _ _
    rw [h] at pre
    obtain ⟨s, hs⟩ := pre
    have hc : isWs c = false :=
      head_dropWhile_false isWs l (show l.dropWhile isWs = c :: (t ++ s) by
        rw [← hs, List.cons_append])
    rw [List.dropWhile_cons, if_neg (by rw [hc]; exact Bool.false_ne_true)]

theorem jsTrim_idem (l : List Char) : jsTrim (jsTrim l) = jsTrim l := by
  show ((jsTrim l).dropWhile isWs).rdropWhile isWs = jsTrim l
  rw [dropWhile_jsTrim]
  exact List.rdropWhile_idempotent _ _

theorem strTrim_idem (s : String) : strTrim (strTrim s) = strTrim s := by
  show String.mk (jsTrim (jsTrim s.data)) = String.mk (jsTrim s.data)
  rw [jsTrim_idem]

/-! ### `normMemo` is determined by the whitespace-free tokens -/

theorem collapseWsAux_cons (b : Bool) (c : Char) (cs : List Char) :
    collapseWsAux b (c :: cs) =
      if isWs c then
        if b then collapseWsAux true cs else ' ' :: collapseWsAux true cs
      else c :: collapseWsAux false cs := rfl

theorem tokensAux_cons (c : Char) (cs acc : List Char) :
    tokensAux (c :: cs) acc =
      if isWs c then
        if acc = [] then tokensAux cs [] else acc.reverse :: tokensAux cs []
      else tokensAux cs (c :: acc) := rfl

theorem collapseTrue_eq : ∀ l : List Char,
    collapseWsAux true l = collapseWsAux false (l.dropWhile isWs)
  | [] => rfl
  | c :: cs => by
    by_cases hw : isWs c = true
    · rw [collapseWsAux_cons, if_pos hw, if_pos rfl, List.dropWhile_cons, if_pos hw]
      exact collapseTrue_eq cs
    · rw [collapseWsAux_cons, if_neg hw, List.dropWhile_cons, if_neg hw,
        collapseWsAux_cons, if_neg hw]

theorem dropWhile_collapseTrue : ∀ l : List Char,
    (collapseWsAux true l).dropWhile isWs = collapseWsAux true l
  | [] => rfl
  | c :: cs => by
    by_cases hw : isWs c = true
    · rw [collapseWsAux_cons, if_pos hw, if_pos rfl]
      exact dropWhile_collapseTrue cs
    · rw [collapseWsAux_cons, if_neg hw, List.dropWhile_cons, if_neg hw]

theorem dropWhile_collapseFalse : ∀ l : List Char,
    (collapseWsAux false l).dropWhile isWs = collapseWsAux false (l.dropWhile isWs)
  | [] => rfl
  | c :: cs => by
    by_cases hw : isWs c = true
    · rw [collapseWsAux_cons, if_pos hw, if_neg Bool.false_ne_true,
        List.dropWhile_cons, if_pos (show isWs ' ' = true from rfl),
        dropWhile_collapseTrue, List.dropWhile_cons, if_pos hw, collapseTrue_eq]
    · rw [collapseWsAux_cons, if_neg hw, List.dropWhile_cons, if_neg hw,
        List.dropWhile_cons, if_neg hw, collapseWsAux_cons, if_neg hw]

theorem tokensAux_dropWhile : ∀ l : List Char,
    tokensAux (l.dropWhile isWs) [] = tokensAux l []
  | [] => rfl
  | c :: cs => by
    by_cases hw : isWs c = true
    · rw [List.dropWhile_cons, if_pos hw, tokensAux_cons, if_pos hw, if_pos rfl]
      exact tokensAux_dropWhile cs
    · rw [List.dropWhile_cons, if_neg hw]

theorem tokensAux_ne_nil : ∀ (l acc : List Char), acc ≠ [] → tokensAux l acc ≠ []
  | [], acc, h => by
    rw [show tokensAux [] acc = if acc = [] then [] else [acc.reverse] from rfl,
      if_neg h]
    exact List.cons_ne_nil _ _
  | c :: cs, acc, h => by
    rw [tokensAux_cons]
    by_cases hw : isWs c = true
    · rw [if_pos hw, if_neg h]
      exact List.cons_ne_nil _ _
    · rw [if_neg hw]
      exact tokensAux_ne_nil cs (c :: acc) (List.cons_ne_nil _ _)

theorem collapseTrue_nil_of : ∀ l : List Char,
    tokensAux l [] = [] → collapseWsAux true l = []
  | [], _ => rfl
  | c :: cs, h => by
    rw [tokensAux_cons] at h
    by_cases hw : isWs c = true
    · rw [if_pos hw, if_pos rfl] at h
      rw [collapseWsAux_cons, if_pos hw, if_pos rfl]
      exact collapseTrue_nil_of cs h
    · rw [if_neg hw] at h
      exact absurd h (tokensAux_ne_nil cs [c] (List.cons_ne_nil _ _))

theorem collapseTrue_head : ∀ l : List Char, tokensAux l [] ≠ [] →
    ∃ c t, collapseWsAux true l = c :: t ∧ isWs c = false
  | [], h => absurd rfl h
  | c :: cs, h => by
    rw [tokensAux_cons] at h
    by_cases hw : isWs c = true
    · rw [if_pos hw, if_pos rfl] at h
      rw [collapseWsAux_cons, if_pos hw, if_pos rfl]
      exact collapseTrue_head cs h
    · rw [collapseWsAux_cons, if_neg hw]
      exact ⟨c, collapseWsAux false cs, rfl, by simpa using hw⟩

theorem collapse_tokens : ∀ l : List Char,
    ((collapseWsAux true l).rdropWhile isWs = joinSp (tokensAux l [])) ∧
      ∀ acc : List Char, acc ≠ [] → (∀ a ∈ acc, isWs a = false) →
        (acc.reverse ++ collapseWsAux false l).rdropWhile isWs =
          joinSp (tokensAux l acc)
  | [] => by
    constructor
    · simp [collapseWsAux, tokensAux, joinSp]
    · intro acc hne hfree
      rw [show collapseWsAux false [] = [] from rfl, List.append_nil,
        show tokensAux [] acc = if acc = [] then [] else [acc.reverse] from rfl,
        if_neg hne,
        rdropWhile_of_all_false isWs (fun a ha => hfree a (List.mem_reverse.mp ha))]
      rfl
  | c :: cs => by
    obtain ⟨ihQ, ihP⟩ := collapse_tokens cs
    constructor
    · by_cases hw : isWs c = true
      · rw [collapseWsAux_cons, if_pos hw, if_pos rfl, tokensAux_cons, if_pos hw,
          if_pos rfl]
        exact ihQ
      · rw [collapseWsAux_cons, if_neg hw, tokensAux_cons, if_neg hw]
        have := ihP [c] (List.cons_ne_nil _ _)
          (by intro a ha; rw [List.mem_singleton.mp ha]; simpa using hw)
        simpa using this
    · intro acc hne hfree
      by_cases hw : isWs c = true
      · rw [collapseWsAux_cons, if_pos hw, if_neg Bool.false_ne_true,
          tokensAux_cons, if_pos hw, if_neg hne]
        by_cases hts : tokensAux cs [] = []
        · rw [hts, collapseTrue_nil_of cs hts]
          rw [show (acc.reverse ++ [' ']).rdropWhile isWs =
              acc.reverse.rdropWhile isWs from
            List.rdropWhile_concat_pos isWs acc.reverse ' ' rfl]
          rw [rdropWhile_of_all_false isWs
            (fun a ha => hfree a (List.mem_reverse.mp ha))]
          rfl
        · obtain ⟨c', t', hc', hw'⟩ := collapseTrue_head cs hts
          obtain ⟨t₁, ts, hts'⟩ := List.exists_cons_of_ne_nil hts
          have h1 : (c' :: t').rdropWhile isWs = c' :: t'.rdropWhile isWs :=
            rdropWhile_cons_not isWs c' hw' t'
          have h2 : (' ' :: c' :: t').rdropWhile isWs =
              ' ' :: (c' :: t').rdropWhile isWs :=
            rdropWhile_cons_ne isWs ' ' (by rw [h1]; exact List.cons_ne_nil _ _)
          have h3 : (' ' :: c' :: t').rdropWhile isWs ≠ [] := by
            rw [h2]
            exact List.cons_ne_nil _ _
          rw [hc', rdropWhile_append_ne isWs h3, h2, ← hc', ihQ, hts']
          rfl
      · rw [collapseWsAux_cons, if_neg hw, tokensAux_cons, if_neg hw]
        have hstep : acc.reverse ++ c :: collapseWsAux false cs =
            (c :: acc).reverse ++ collapseWsAux false cs := by
          rw [List.reverse_cons, List.append_assoc]
          rfl
        rw [hstep]
        exact ihP (c :: acc) (List.cons_ne_nil _ _)
          (by
            intro a ha
            rcases List.mem_cons.mp ha with h | h
            · rw [h]; simpa using hw
            · exact hfree a h)

/-- `normMemo` depends on a memo only through its whitespace-free tokens:
it joins them with single spaces. -/
theorem normMemo_eq_joinSp (l : List Char) : normMemo l = joinSp (tokensAux l []) := by
  show (((collapseWsAux false l).dropWhile isWs).rdropWhile isWs) = _
  rw [dropWhile_collapseFalse, ← tokensAux_dropWhile l]
  cases h : l.dropWhile isWs with
  | nil => rfl
  | cons c cs =>
    have hc : isWs c = false := head_dropWhile_false isWs l h
    rw [collapseWsAux_cons, if_neg (by rw [hc]; exact Bool.false_ne_true),
      tokensAux_cons, if_neg (by rw [hc]; exact Bool.false_ne_true)]
    have := (collapse_tokens cs).2 [c] (List.cons_ne_nil _ _)
      (by intro a ha; rw [List.mem_singleton.mp ha, hc])
    simpa using this

/-! ### Claims about the identity key and the deduplication engine -/

/-- C4: the identity key is `(date, normalized(memo), amount, kind)` where the
normalization collapses whitespace runs and trims; hence two transactions
that agree on date, amount and kind and whose memos have the same
whitespace-free tokens (in particular, memos differing only in whitespace
run-length) have equal identity keys. -/
theorem claim_C4 (t₁ t₂ : Txn) (hdate : t₁.date = t₂.date)
    (hamt : t₁.amount = t₂.amount) (hkind : t₁.kind = t₂.kind)
    (hmemo : wsTokens t₁.memo = wsTokens t₂.memo) :
    dupKey t₁ = dupKey t₂ := by
  have hnorm : normMemo t₁.memo.data = normMemo t₂.memo.data := by
    rw [normMemo_eq_joinSp, normMemo_eq_joinSp]
    unfold wsTokens at hmemo
    rw [hmemo]
  unfold dupKey strNormMemo
  rw [hdate, hamt, hkind, hnorm]

/-- Witness for C4: `"a  b"` and `"a b"` differ only in the length of one
whitespace run and produce the same identity key. -/
theorem claim_C4_witness :
    dupKey ⟨"i1", "2024-05-10", "共同", "食費", "a  b", 450, Kind.expense⟩ =
      dupKey ⟨"i2", "2024-05-10", "共同", "食費", "a b", 450, Kind.expense⟩ :=
  claim_C4 _ _ rfl rfl rfl (by decide)

/-- C3: `classify` partitions candidates by membership of their identity key
among the existing keys, with the stated edge cases: empty candidates give
empty partitions, an empty existing ledger classifies everything new, and a
list classified against itself is entirely duplicate. -/
theorem claim_C3 (cs ex : List Txn) :
    (classifyNews ([] : List Txn) ex = [] ∧ classifyDups ([] : List Txn) ex = []) ∧
      (classifyNews cs [] = cs ∧ classifyDups cs [] = []) ∧
      (classifyNews cs cs = [] ∧ classifyDups cs cs = cs) ∧
      ∀ c : Txn,
        (c ∈ classifyDups cs ex ↔ c ∈ cs ∧ dupKey c ∈ ex.map dupKey) ∧
        (c ∈ classifyNews cs ex ↔ c ∈ cs ∧ dupKey c ∉ ex.map dupKey) := by
  refine ⟨⟨rfl, rfl⟩, ⟨?_, ?_⟩, ⟨?_, ?_⟩, ?_⟩
  · exact List.filter_eq_self.mpr fun a _ => rfl
  · exact List.filter_eq_nil_iff.mpr fun a _ => by simp
  · refine List.filter_eq_nil_iff.mpr fun a ha => ?_
    simp only [Bool.not_eq_true, Bool.not_eq_false, Bool.not_eq_true']
    simp
    exact ⟨a, ha, rfl⟩
  · refine List.filter_eq_self.mpr fun a ha => ?_
    exact contains_true_iff.mpr (List.mem_map.mpr ⟨a, ha, rfl⟩)
  · intro c
    constructor
    · rw [classifyDups, List.mem_filter, contains_true_iff]
    · rw [classifyNews, List.mem_filter]
      simp only [Bool.not_eq_true']
      constructor
      · rintro ⟨h1, h2⟩
        exact ⟨h1, fun hm => by rw [contains_true_iff.mpr hm] at h2; cases h2⟩
      · rintro ⟨h1, h2⟩
        refine ⟨h1, ?_⟩
        rw [Bool.eq_false_iff]
        intro hm
        exact h2 (contains_true_iff.mp hm)

/-- C6: when classification yields a non-empty new-set, the merge result is
exactly the new-set prepended to the prior ledger — independent of the
confirmation answer (no confirmation is consulted), so duplicates are
dropped and the ledger afterwards is exactly the prior records plus the
new-set. -/
theorem claim_C6 (imported txns : List Txn) (confirmForce : Bool)
    (fresh : Nat → String) (h : classifyNews imported txns ≠ []) :
    addImportedWithDupPrompt imported txns confirmForce fresh =
      classifyNews imported txns ++ txns := by
  cases imported with
  | nil => exact absurd rfl h
  | cons i is =>
    show (if classifyNews (i :: is) txns = [] ∧ classifyDups (i :: is) txns ≠ [] then
        if confirmForce then
          txns ++ ((classifyDups (i :: is) txns).enum.map fun p =>
            { p.2 with id := fresh p.1 })
        else txns
      else if classifyNews (i :: is) txns ≠ [] then classifyNews (i :: is) txns ++ txns
      else txns) = classifyNews (i :: is) txns ++ txns
    rw [if_neg fun hand => h hand.1, if_pos h]

/-- Witness for C6: one fresh candidate and one duplicate of the existing
record; the fresh one is inserted, the duplicate is dropped, no
confirmation is consulted. -/
theorem claim_C6_witness :
    addImportedWithDupPrompt
      [⟨"b", "2024-06-01", "共同", "外食", "tea", 300, Kind.expense⟩,
        ⟨"c", "2024-05-10", "共同", "食費", "coffee", 450, Kind.expense⟩]
      [⟨"a", "2024-05-10", "共同", "食費", "coffee", 450, Kind.expense⟩] false
      (fun _ => "z") =
      [⟨"b", "2024-06-01", "共同", "外食", "tea", 300, Kind.expense⟩,
        ⟨"a", "2024-05-10", "共同", "食費", "coffee", 450, Kind.expense⟩] := by
  rw [claim_C6 _ _ _ _ (by decide)]
  decide

/-- C7: when the new-set is empty and the duplicate-set non-empty, answering
"no" to the force-insert prompt leaves the ledger completely unchanged. -/
theorem claim_C7 (imported txns : List Txn) (fresh : Nat → String)
    (hn : classifyNews imported txns = []) (hd : classifyDups imported txns ≠ []) :
    addImportedWithDupPrompt imported txns false fresh = txns := by
  cases imported with
  | nil => exact absurd rfl hd
  | cons i is =>
    show (if classifyNews (i :: is) txns = [] ∧ classifyDups (i :: is) txns ≠ [] then
        if (false : Bool) then
          txns ++ ((classifyDups (i :: is) txns).enum.map fun p =>
            { p.2 with id := fresh p.1 })
        else txns
      else if classifyNews (i :: is) txns ≠ [] then classifyNews (i :: is) txns ++ txns
      else txns) = txns
    rw [if_pos ⟨hn, hd⟩, if_neg Bool.false_ne_true]

/-- Witness for C7: the spec's scenario — a candidate identical to a stored
transaction, classified entirely duplicate; the user declines and the
ledger is unchanged. -/
theorem claim_C7_witness :
    addImportedWithDupPrompt
      [⟨"b", "2024-05-10", "共同", "食費", "coffee", 450, Kind.expense⟩]
      [⟨"a", "2024-05-10", "共同", "食費", "coffee", 450, Kind.expense⟩] false
      (fun _ => "z") =
      [⟨"a", "2024-05-10", "共同", "食費", "coffee", 450, Kind.expense⟩] :=
  claim_C7 _ _ _ (by decide) (by decide)

/-! ### Category aggregation: sums and keys -/

theorem foldl_add_amount (l : List Txn) :
    ∀ z : Int, l.foldl (fun s t => s + t.amount) z = z + (l.map Txn.amount).sum := by
  induction l with
  | nil => intro z; simp
  | cons t ts ih =>
    intro z
    rw [List.foldl_cons, ih (z + t.amount), List.map_cons, List.sum_cons, add_assoc]

theorem sumVals_updAgg : ∀ (agg : List (String × Int)) (c : String) (a : Int),
    sumVals (updAgg agg c a) = sumVals agg + a
  | [], c, a => by simp [updAgg, sumVals]
  | p :: rest, c, a => by
    by_cases hp : p.1 = c
    · simp only [updAgg, if_pos hp, sumVals, List.map_cons, List.sum_cons]
      ring
    · simp only [updAgg, if_neg hp, sumVals, List.map_cons, List.sum_cons]
      have := sumVals_updAgg rest c a
      simp only [sumVals] at this
      rw [this]
      ring

theorem sumVals_foldl (l : List Txn) :
    ∀ agg : List (String × Int),
      sumVals (l.foldl (fun agg t => updAgg agg t.category t.amount) agg) =
        sumVals agg + (l.map Txn.amount).sum := by
  induction l with
  | nil => intro agg; simp
  | cons t ts ih =>
    intro agg
    rw [List.foldl_cons, ih (updAgg agg t.category t.amount), sumVals_updAgg,
      List.map_cons, List.sum_cons]
    ring

theorem keys_updAgg : ∀ (agg : List (String × Int)) (c : String) (a : Int),
    (updAgg agg c a).map Prod.fst =
      if c ∈ agg.map Prod.fst then agg.map Prod.fst else agg.map Prod.fst ++ [c]
  | [], c, a => by simp [updAgg]
  | p :: rest, c, a => by
    by_cases hp : p.1 = c
    · simp only [updAgg, if_pos hp, List.map_cons]
      rw [if_pos (by rw [← hp]; exact List.mem_cons_self _ _)]
    · simp only [updAgg, if_neg hp, List.map_cons, keys_updAgg rest c a]
      by_cases hm : c ∈ rest.map Prod.fst
      · rw [if_pos hm, if_pos (List.mem_cons_of_mem _ hm)]
      · rw [if_neg hm, if_neg (by
          intro hcm
          rcases List.mem_cons.mp hcm with hch | hcm'
          · exact hp hch.symm
          · exact hm hcm'), List.cons_append]

theorem mem_keys_updAgg (agg : List (String × Int)) (c c' : String) (a : Int) :
    c' ∈ (updAgg agg c a).map Prod.fst ↔ c' ∈ agg.map Prod.fst ∨ c' = c := by
  rw [keys_updAgg]
  by_cases hm : c ∈ agg.map Prod.fst
  · rw [if_pos hm]
    constructor
    · exact Or.inl
    · rintro (h | rfl)
      · exact h
      · exact hm
  · rw [if_neg hm, List.mem_append, List.mem_singleton]

theorem mem_keys_foldl (l : List Txn) :
    ∀ (agg : List (String × Int)) (c' : String),
      c' ∈ ((l.foldl (fun agg t => updAgg agg t.category t.amount) agg).map Prod.fst) ↔
        c' ∈ agg.map Prod.fst ∨ c' ∈ l.map Txn.category := by
  induction l with
  | nil => intro agg c'; simp
  | cons t ts ih =>
    intro agg c'
    rw [List.foldl_cons, ih (updAgg agg t.category t.amount) c', mem_keys_updAgg,
      List.map_cons, List.mem_cons]
    tauto

/-- C5: summing the per-category values of the month's category breakdown
equals the month's expense total, and the categories present are exactly
the categories of the month's expense transactions (none zero-filled). -/
theorem claim_C5 (txns : List Txn) (fm : String) :
    sumVals (categoryAgg txns fm) = expenseTotal txns fm ∧
      ∀ c : String, c ∈ (categoryAgg txns fm).map Prod.fst ↔
        c ∈ (expenseVisible txns fm).map Txn.category := by
  constructor
  · rw [categoryAgg, sumVals_foldl, expenseTotal, sumAmounts,
      foldl_add_amount, zero_add]
    simp [sumVals]
  · intro c
    rw [categoryAgg, mem_keys_foldl]
    simp

/-! ### Daily budget progress -/

theorem progressGo_length (eBy iBy : Nat → Int) (perDay : ℚ) :
    ∀ (n d : Nat) (cE cI : Int) (cB : ℚ),
      (progressGo eBy iBy perDay n d cE cI cB).length = n := by
  intro n
  induction n with
  | zero => intro d cE cI cB; rfl
  | succ n ih =>
    intro d cE cI cB
    rw [progressGo, List.length_cons, ih]

theorem progressGo_get (eBy iBy : Nat → Int) (perDay : ℚ) :
    ∀ (n idx d : Nat) (cE cI : Int) (cB : ℚ)
      (h : idx < (progressGo eBy iBy perDay n d cE cI cB).length),
      ((progressGo eBy iBy perDay n d cE cI cB).get ⟨idx, h⟩).day = pad2 (d + idx) ∧
      ((progressGo eBy iBy perDay n d cE cI cB).get ⟨idx, h⟩).expense = eBy (d + idx) ∧
      ((progressGo eBy iBy perDay n d cE cI cB).get ⟨idx, h⟩).income = iBy (d + idx) := by
  intro n
  induction n with
  | zero =>
    intro idx d cE cI cB h
    rw [progressGo_length] at h
    exact absurd h (Nat.not_lt_zero idx)
  | succ n ih =>
    intro idx d cE cI cB h
    cases idx with
    | zero => exact ⟨rfl, rfl, rfl⟩
    | succ idx =>
      have h' : idx < (progressGo eBy iBy perDay n (d + 1)
          (cE + eBy d) (cI + iBy d) (cB + perDay)).length := by
        rw [progressGo_length]
        rw [progressGo_length] at h
        omega
      have hrw : d + (idx + 1) = (d + 1) + idx := by omega
      rw [hrw]
      exact ih idx (d + 1) (cE + eBy d) (cI + iBy d) (cB + perDay) h'

theorem progressGo_getLast_cumBudget (eBy iBy : Nat → Int) (perDay : ℚ) :
    ∀ (n d : Nat) (cE cI : Int) (cB : ℚ), n ≠ 0 →
      ∃ r, (progressGo eBy iBy perDay n d cE cI cB).getLast? = some r ∧
        r.cumBudget = cB + (n : ℚ) * perDay := by
  intro n
  induction n with
  | zero => intro d cE cI cB h; exact absurd rfl h
  | succ n ih =>
    intro d cE cI cB _
    cases n with
    | zero =>
      refine ⟨⟨pad2 d, eBy d, iBy d, cE + eBy d, cI + iBy d, cB + perDay⟩, rfl, ?_⟩
      show cB + perDay = cB + ((0 + 1 : Nat) : ℚ) * perDay
      push_cast
      ring
    | succ m =>
      obtain ⟨r, hr, hcb⟩ :=
        ih (d + 1) (cE + eBy d) (cI + iBy d) (cB + perDay) (Nat.succ_ne_zero m)
      refine ⟨r, ?_, ?_⟩
      · rw [progressGo, progressGo]
        rw [progressGo] at hr
        exact List.getLast?_cons_cons.trans hr
      · rw [hcb]
        push_cast
        ring

theorem byDay_zero (vis : List Txn) (d : Nat)
    (h : ∀ t ∈ vis, ¬dayOf t = some d) :
    expenseByDay vis d = 0 ∧ incomeByDay vis d = 0 := by
  constructor
  · rw [expenseByDay, List.filter_eq_nil_iff.mpr ?_]
    · rfl
    · intro t ht
      simp only [Bool.and_eq_true, beq_iff_eq, not_and]
      exact fun _ => h t ht
  · rw [incomeByDay, List.filter_eq_nil_iff.mpr ?_]
    · rfl
    · intro t ht
      simp only [Bool.and_eq_true, beq_iff_eq, not_and]
      exact fun _ => h t ht

theorem fdiv12_small (m : Nat) (h : m < 12) :
    (m : Int).fdiv 12 = 0 ∧ (m : Int).fmod 12 = (m : Int) := by
  interval_cases m <;> exact ⟨by decide, by decide⟩

theorem monthLen_ge (y : Int) (m : Nat) : 28 ≤ monthLenByIdx y m := by
  unfold monthLenByIdx
  split
  · split <;> norm_num
  · split <;> norm_num

theorem jsMonthLen_of_month (y mm : Nat) (h1 : 1 ≤ mm) (h2 : mm ≤ 12) :
    jsMonthLen (y : Int) ((mm : Int) - 1) = daysInMonth y mm := by
  have hk : ((mm : Int) - 1) = ((mm - 1 : Nat) : Int) := by omega
  obtain ⟨hd, hm⟩ := fdiv12_small (mm - 1) (by omega)
  rw [jsMonthLen, hk, hd, hm, add_zero, Int.toNat_natCast]
  rfl

/-- C2: over a parseable month `YYYY-MM`, `progressData` returns exactly
`daysInMonth` rows, the `i`-th row carrying day `i + 1` (dense ascending
coverage, with zero expense/income sums for days with no transactions), and
the cumulative budget of the last row equals the monthly budget exactly. -/
theorem claim_C2 (fm : String) (budget : ℚ) (txns : List Txn) (y mm : Nat)
    (h : monthStr? fm = some (y, mm)) :
    (progressData fm budget txns).length = daysInMonth y mm ∧
      (∀ (i : Nat) (hi : i < (progressData fm budget txns).length),
        ((progressData fm budget txns).get ⟨i, hi⟩).day = pad2 (i + 1) ∧
          ((∀ t ∈ visibleTxns txns fm, ¬dayOf t = some (i + 1)) →
            ((progressData fm budget txns).get ⟨i, hi⟩).expense = 0 ∧
              ((progressData fm budget txns).get ⟨i, hi⟩).income = 0)) ∧
      ∃ r, (progressData fm budget txns).getLast? = some r ∧ r.cumBudget = budget := by
  rcases hy : jsNumDigits? (fm.data.take 4) with _ | y'
  · rw [monthStr?, hy] at h
    simp at h
  rcases hm : jsNumDigits? ((fm.data.drop 5).take 2) with _ | m'
  · rw [monthStr?, hy, hm] at h
    simp at h
  rw [monthStr?, hy, hm] at h
  simp only [Option.some_bind] at h
  split at h
  case isFalse => exact absurd h (by simp)
  case isTrue hcond =>
    have hinj := Option.some.inj h
    obtain ⟨rfl, rfl⟩ : y = y' ∧ mm = m' :=
      ⟨(congrArg Prod.fst hinj).symm, (congrArg Prod.snd hinj).symm⟩
    obtain ⟨hmm1, hmm2⟩ := hcond
    have hN : jsMonthLen (y : Int) ((mm : Int) - 1) = daysInMonth y mm :=
      jsMonthLen_of_month y mm hmm1 hmm2
    have hNge : 28 ≤ daysInMonth y mm := monthLen_ge (y : Int) (mm - 1)
    have hmax : max 1 (daysInMonth y mm) = daysInMonth y mm :=
      Nat.max_eq_right (by omega)
    have hP : progressData fm budget txns =
        progressGo (expenseByDay (visibleTxns txns fm))
          (incomeByDay (visibleTxns txns fm))
          (budget / ((daysInMonth y mm : Nat) : ℚ)) (daysInMonth y mm) 1 0 0 0 := by
      rw [progressData, hy, hm]
      show progressGo _ _
          (budget / ((max 1 (jsMonthLen (y : Int) ((mm : Int) - 1)) : Nat) : ℚ))
          (jsMonthLen (y : Int) ((mm : Int) - 1)) 1 0 0 0 = _
      rw [hN, hmax]
    refine ⟨?_, ?_, ?_⟩
    · rw [hP, progressGo_length]
    · intro i hi
      have hi' : i < (progressGo (expenseByDay (visibleTxns txns fm))
          (incomeByDay (visibleTxns txns fm))
          (budget / ((daysInMonth y mm : Nat) : ℚ)) (daysInMonth y mm) 1 0 0 0).length := by
        rw [← hP]
        exact hi
      have hget : (progressData fm budget txns).get ⟨i, hi⟩ =
          (progressGo (expenseByDay (visibleTxns txns fm))
            (incomeByDay (visibleTxns txns fm))
            (budget / ((daysInMonth y mm : Nat) : ℚ))
            (daysInMonth y mm) 1 0 0 0).get ⟨i, hi'⟩ :=
        List.get_of_eq hP ⟨i, hi⟩
      obtain ⟨hday, hexp, hinc⟩ := progressGo_get _ _ _ (daysInMonth y mm) i 1 0 0
        (0 : ℚ) hi'
      have h1i : (1 : Nat) + i = i + 1 := by omega
      constructor
      · rw [hget, hday, h1i]
      · intro hno
        have hzero := byDay_zero (visibleTxns txns fm) (i + 1) hno
        constructor
        · rw [hget, hexp, h1i, hzero.1]
        · rw [hget, hinc, h1i, hzero.2]
    · obtain ⟨r, hr, hcb⟩ := progressGo_getLast_cumBudget
        (expenseByDay (visibleTxns txns fm)) (incomeByDay (visibleTxns txns fm))
        (budget / ((daysInMonth y mm : Nat) : ℚ)) (daysInMonth y mm) 1 0 0 0
        (by omega)
      refine ⟨r, by rw [hP]; exact hr, ?_⟩
      have hne : ((daysInMonth y mm : Nat) : ℚ) ≠ 0 := by
        exact_mod_cast (show (daysInMonth y mm : Nat) ≠ 0 by omega)
      rw [hcb, zero_add, mul_comm, div_mul_cancel₀ budget hne]

/-- Witness for C2: `dailyProgress("2024-02", 280000)` over an empty ledger
has exactly 29 rows (2024 is a leap year) and its last row's cumulative
budget is exactly `280000`. -/
theorem claim_C2_witness :
    monthStr? "2024-02" = some (2024, 2) ∧
      (progressData "2024-02" 280000 []).length = daysInMonth 2024 2 ∧
      daysInMonth 2024 2 = 29 ∧
      ∃ r, (progressData "2024-02" 280000 []).getLast? = some r ∧
        r.cumBudget = 280000 :=
  ⟨by decide, (claim_C2 "2024-02" 280000 [] 2024 2 (by decide)).1, by decide,
    (claim_C2 "2024-02" 280000 [] 2024 2 (by decide)).2.2⟩

/-! ### Claims about manual entry, editing and the post-import month update -/

/-- Counterexample to C1: a manual add with `amount: -5` (all presence checks
satisfied, memo empty, empty ledger) is *not* rejected — `addTxn` inserts
the record and the ledger grows from 0 to 1 entries.  The source's guard
checks only that `date`, `category`, `amount` and `kind` are present. -/
theorem claim_C1_counterexample :
    addTxn ⟨"2024-05-10", "食費", "", "共同", some (-5), some Kind.expense⟩
        "t1" [] false =
      [⟨"t1", "2024-05-10", "共同", "食費", "", -5, Kind.expense⟩] ∧
    (addTxn ⟨"2024-05-10", "食費", "", "共同", some (-5), some Kind.expense⟩
        "t1" [] false).length ≠ ([] : List Txn).length := by
  exact ⟨by decide, by decide⟩

/-- C1 as amended: `addTxn` refuses only on a missing `date`, `category`,
`amount` or `kind` (and on a declined duplicate prompt); any present amount
— including a non-positive one — and any memo — including a
whitespace-only one — pass, and the record is inserted at the front of the
ledger.  `saveEdit` applies no validity gate either. -/
theorem claim_C1_amended (ni : NewItem) (newId : String) (txns : List Txn)
    (confirmDup : Bool) (hd : ni.date ≠ "") (hc : ni.category ≠ "")
    (a : Int) (ha : ni.amount? = some a) (k : Kind) (hk : ni.kind? = some k)
    (hdup : dupKey (manualTxn ni newId a k) ∉ txns.map dupKey) :
    addTxn ni newId txns confirmDup = manualTxn ni newId a k :: txns := by
  unfold addTxn
  rw [if_neg hd, if_neg hc, ha, hk]
  have hcontains : (txns.map dupKey).contains (dupKey (manualTxn ni newId a k)) =
      false :=
    Bool.eq_false_iff.mpr fun hm => hdup (contains_true_iff.mp hm)
  show (if ((txns.map dupKey).contains (dupKey (manualTxn ni newId a k)) &&
      !confirmDup) = true then txns else manualTxn ni newId a k :: txns) =
    manualTxn ni newId a k :: txns
  rw [hcontains, Bool.false_and, if_neg Bool.false_ne_true]

/-- Witness for C1 (amended): the `amount: -5`, empty-memo record is
accepted and prepended. -/
theorem claim_C1_witness :
    addTxn ⟨"2024-07-01", "日用品", "", "共同", some (-5), some Kind.expense⟩
        "w1" [] true =
      [⟨"w1", "2024-07-01", "共同", "日用品", "", -5, Kind.expense⟩] :=
  (claim_C1_amended ⟨"2024-07-01", "日用品", "", "共同", some (-5), some Kind.expense⟩
        "w1" [] true (by decide) (by decide) (-5) rfl Kind.expense rfl
        (by decide)).trans
    (by decide)

/-- Counterexample to C8: one OCR candidate that duplicates the stored
transaction, force-insert declined — nothing is inserted (the ledger is
returned unchanged), yet the reporting month is still advanced from
`"2024-01"` to the candidate's month `"2024-05"`. -/
theorem claim_C8_counterexample :
    (handleOpenAIOcr [⟨"b", "2024-05-10", "共同", "食費", "coffee", 450, Kind.expense⟩]
        [⟨"a", "2024-05-10", "共同", "食費", "coffee", 450, Kind.expense⟩] false
        (fun _ => "f") "2024-01").1 =
      [⟨"a", "2024-05-10", "共同", "食費", "coffee", 450, Kind.expense⟩] ∧
    (handleOpenAIOcr [⟨"b", "2024-05-10", "共同", "食費", "coffee", 450, Kind.expense⟩]
        [⟨"a", "2024-05-10", "共同", "食費", "coffee", 450, Kind.expense⟩] false
        (fun _ => "f") "2024-01").2 = "2024-05" ∧
    ("2024-05" : String) ≠ "2024-01" := by
  refine ⟨by decide, by decide, by decide⟩

/-- C8 as amended: after an import flow the reporting month is set to the
month of the *first OCR candidate* whenever the candidate list is
non-empty — whether or not anything was inserted — and is unchanged only
when the candidate list is empty. -/
theorem claim_C8_amended (cand ledger : List Txn) (confirmForce : Bool)
    (fresh : Nat → String) (fm : String) :
    (handleOpenAIOcr cand ledger confirmForce fresh fm).2 =
      match cand with
      | [] => fm
      | c :: _ => String.mk (c.date.data.take 7) := by
  cases cand <;> rfl

/-- Counterexample to C9: updating an id absent from the ledger leaves the
ledger unchanged and completes silently — while the spec's `update` (which
the claim restates) signals `NotFound` on the same input. -/
theorem claim_C9_counterexample :
    saveEdit (some "zz") ⟨"x", "2024-06-01", "共同", "外食", "tea", 300, Kind.expense⟩
        [⟨"a", "2024-05-10", "共同", "食費", "coffee", 450, Kind.expense⟩] =
      [⟨"a", "2024-05-10", "共同", "食費", "coffee", 450, Kind.expense⟩] ∧
    specUpdate "zz" ⟨"x", "2024-06-01", "共同", "外食", "tea", 300, Kind.expense⟩
        [⟨"a", "2024-05-10", "共同", "食費", "coffee", 450, Kind.expense⟩] =
      Except.error UpdateError.notFound := by
  exact ⟨by decide, rfl⟩

/-- C9 as amended: `saveEdit` replaces in place every record whose `id`
matches the edit target; when no record has that id the map is the
identity, so the ledger is unchanged and the operation completes silently —
no `NotFound` failure is signaled and nothing is inserted. -/
theorem claim_C9_amended (eid : String) (r : Txn) (L : List Txn) :
    saveEdit (some eid) r L =
      L.map (fun t => if t.id = eid then { r with id := eid } else t) ∧
    ((∀ t ∈ L, t.id ≠ eid) → saveEdit (some eid) r L = L) := by
  refine ⟨rfl, fun h => ?_⟩
  show L.map (fun t => if t.id = eid then { r with id := eid } else t) = L
  have hcg : ∀ t ∈ L, (if t.id = eid then { r with id := eid } else t) = t :=
    fun t ht => if_neg (h t ht)
  rw [List.map_congr_left hcg]
  exact List.map_id L

/-- Witness for C9 (amended): a concrete absent-id edit is a silent no-op. -/
theorem claim_C9_witness :
    saveEdit (some "q7") ⟨"x", "2024-06-01", "共同", "外食", "tea", 300, Kind.expense⟩
        [⟨"a", "2024-05-10", "共同", "食費", "coffee", 450, Kind.expense⟩,
          ⟨"b", "2024-05-11", "まや", "交通", "bus", 210, Kind.expense⟩] =
      [⟨"a", "2024-05-10", "共同", "食費", "coffee", 450, Kind.expense⟩,
        ⟨"b", "2024-05-11", "まや", "交通", "bus", 210, Kind.expense⟩] :=
  (claim_C9_amended "q7" ⟨"x", "2024-06-01", "共同", "外食", "tea", 300, Kind.expense⟩
      [⟨"a", "2024-05-10", "共同", "食費", "coffee", 450, Kind.expense⟩,
        ⟨"b", "2024-05-11", "まや", "交通", "bus", 210, Kind.expense⟩]).2
    (by decide)

/-- C10: every item the receipt normalization emits has `kind = "expense"`
(the collaborator's `kind` field — `income` included — is never read), a
non-empty already-trimmed memo, a strictly positive amount, and a
`YYYY-MM-DD` date (today's date substituted when the supplied one is
missing or malformed); the client-side kind defaulting keeps `"expense"`,
so the import path never yields an income record. -/
theorem claim_C10 (today : String) (items : List RawReceiptItem)
    (htoday : isDateFmt today = true) :
    ∀ r ∈ normalizeReceiptItems today items,
      r.kind = "expense" ∧ r.memo ≠ "" ∧ strTrim r.memo = r.memo ∧
        0 < r.amount ∧ isDateFmt r.date = true ∧
        clientKindOf r.kind = "expense" := by
  intro r hr
  rw [normalizeReceiptItems, List.mem_filterMap] at hr
  obtain ⟨it, _, hit⟩ := hr
  simp only [normalizeReceiptItem] at hit
  split at hit
  · exact absurd hit (by simp)
  · next hcond =>
    rw [Bool.or_eq_true, not_or] at hcond
    obtain ⟨hamt, hmemo⟩ := hcond
    obtain rfl := Option.some.inj hit
    refine ⟨rfl, ?_, strTrim_idem it.memo, ?_, ?_, rfl⟩
    · intro he
      have he' : strTrim it.memo = "" := he
      exact hmemo (by rw [he']; rfl)
    · exact lt_of_not_le fun hle => hamt (by simpa using hle)
    · show isDateFmt (match it.date? with
        | some d => if isDateFmt d then d else today
        | none => today) = true
      cases it.date? with
      | none => exact htoday
      | some d =>
        show isDateFmt (if isDateFmt d = true then d else today) = true
        by_cases hdf : isDateFmt d = true
        · rw [if_pos hdf]
          exact hdf
        · rw [if_neg hdf]
          exact htoday

/-- Witness for C10: a payload item carrying `kind: "income"`, a padded memo
and no date is normalized to an expense dated today with a trimmed memo. -/
theorem claim_C10_witness :
    (⟨"2025-01-01", "milk", 100, "", "", "expense"⟩ : ReceiptItem).kind = "expense" ∧
      (⟨"2025-01-01", "milk", 100, "", "", "expense"⟩ : ReceiptItem).memo ≠ "" ∧
      strTrim (⟨"2025-01-01", "milk", 100, "", "", "expense"⟩ : ReceiptItem).memo =
        (⟨"2025-01-01", "milk", 100, "", "", "expense"⟩ : ReceiptItem).memo ∧
      0 < (⟨"2025-01-01", "milk", 100, "", "", "expense"⟩ : ReceiptItem).amount ∧
      isDateFmt (⟨"2025-01-01", "milk", 100, "", "", "expense"⟩ : ReceiptItem).date =
        true ∧
      clientKindOf (⟨"2025-01-01", "milk", 100, "", "", "expense"⟩ : ReceiptItem).kind =
        "expense" :=
  claim_C10 "2025-01-01" [⟨none, " milk ", 100, "", "", "income"⟩] (by decide)
    ⟨"2025-01-01", "milk", 100, "", "", "expense"⟩ (by decide)

end Kakeibo
